import Mathlib

/- Shallow embedding of the dotty task manager core: the task store
   (src/src/store/useTaskStore.ts) and the canvas layout helpers
   (src/src/views/CanvasView.tsx).

   Machine numbers (timestamps, pixel coordinates) are modelled as `Int`;
   every arithmetic the embedded code performs on them is exact in doubles
   for the magnitudes involved.  Task ids are `String`, as in the source. -/

namespace Dotty

inductive Status where
  | todo
  | done
deriving DecidableEq, Repr

structure Subtask where
  id : String
  title : String
  done : Bool
deriving DecidableEq, Repr

structure Pos where
  x : Int
  y : Int
deriving DecidableEq, Repr

structure Task where
  id : String
  title : String
  status : Status
  createdAt : Int
  position : Option Pos
  dependencies : List String
  dueDate : Option Int
  description : String
  subtasks : List Subtask
deriving DecidableEq, Repr

def GRID_SIZE : Int := 20

/-- Embeds `snapToGrid` (useTaskStore.ts line 49 and CanvasView.tsx line 173):
    `Math.round(value / GRID_SIZE) * GRID_SIZE`.  On an integer pixel value,
    JS `Math.round x` is `⌊x + 1/2⌋`, so `round (v / 20) = ⌊(v + 10) / 20⌋`. -/
def snapToGrid (value : Int) : Int := ((value + 10).fdiv GRID_SIZE) * GRID_SIZE

/-- Embeds `getInitialPosition` (useTaskStore.ts line 54): a 3-column grid
    of slots, NODE_WIDTH = 200, NODE_HEIGHT = 60, GAP = 40. -/
def getInitialPosition (index : Nat) : Pos :=
  { x := snapToGrid (GRID_SIZE * 4 + ((index % 3 : Nat) : Int) * (200 + 40)),
    y := snapToGrid (GRID_SIZE * 4 + ((index / 3 : Nat) : Int) * (60 + 40)) }

/-- The "dependents" edge relation of the stored graph: `dependentsRel tasks a b`
    holds when some stored task with id `b` lists `a` among its `dependencies`
    ("b depends on a", the inverse of the `dependencies` direction). -/
def dependentsRel (tasks : List Task) (a b : String) : Prop :=
  ∃ t ∈ tasks, t.id = b ∧ a ∈ t.dependencies

/-- Embeds the `dependentsMap` entry for one key (useTaskStore.ts lines 71-78):
    every task pushes its own id onto the bucket of each of its dependencies. -/
def dependentsOf (tasks : List Task) (depId : String) : List String :=
  tasks.flatMap fun t =>
    t.dependencies.filterMap fun d => if d = depId then some t.id else none

/-- All ids that occur inside some task's `dependencies` list: exactly the keys
    of the `dependentsMap`, used as the finite universe for termination. -/
def univIds (tasks : List Task) : List String :=
  tasks.flatMap Task.dependencies

theorem mem_dependentsOf {tasks : List Task} {d x : String} :
    x ∈ dependentsOf tasks d ↔ dependentsRel tasks d x := by
  simp only [dependentsOf, List.mem_flatMap, List.mem_filterMap, dependentsRel]
  constructor
  · rintro ⟨t, ht, e, he, hx⟩
    split at hx
    · rename_i heq
      cases hx
      exact ⟨t, ht, rfl, heq ▸ he⟩
    · simp at hx
  · rintro ⟨t, ht, hid, hd⟩
    exact ⟨t, ht, d, hd, by simp [hid]⟩

theorem dependentsOf_eq_nil_of_not_mem_univ {tasks : List Task} {c : String}
    (h : c ∉ univIds tasks) : dependentsOf tasks c = [] := by
  rw [List.eq_nil_iff_forall_not_mem]
  intro x hx
  rcases mem_dependentsOf.1 hx with ⟨t, ht, _, hd⟩
  exact h (List.mem_flatMap.2 ⟨t, ht, hd⟩)

/-- Embeds the iterative DFS loop of `wouldCreateCycle` (useTaskStore.ts
    lines 80-96).  The stack is a list with its head as the top (JS pops from
    the array's end and pushes the dependents in order, hence the `reverse`). -/
def dfsVisit (tasks : List Task) (sourceId : String)
    (visited stack : List String) : Bool :=
  match stack with
  | [] => false
  | current :: rest =>
    if current = sourceId then true
    else if current ∈ visited then dfsVisit tasks sourceId visited rest
    else dfsVisit tasks sourceId (current :: visited)
      ((dependentsOf tasks current).reverse ++ rest)
termination_by (((univIds tasks).toFinset \ visited.toFinset).card, stack.length)
decreasing_by
  · exact Prod.Lex.right _ (by simp)
  · rename_i h1 h2
    by_cases hu : current ∈ (univIds tasks).toFinset
    · apply Prod.Lex.left
      apply Finset.card_lt_card
      constructor
      · intro x hx
        simp only [Finset.mem_sdiff, List.toFinset_cons, Finset.mem_insert,
          List.mem_toFinset] at hx ⊢
        exact ⟨hx.1, fun h => hx.2 (Or.inr h)⟩
      · intro hsub
        have : current ∈ (univIds tasks).toFinset \ (current :: visited).toFinset := by
          apply hsub
          simp [hu, h2]
        simp at this
    · have hcv : (univIds tasks).toFinset \ (current :: visited).toFinset
          = (univIds tasks).toFinset \ visited.toFinset := by
        ext x
        simp only [Finset.mem_sdiff, List.toFinset_cons, Finset.mem_insert,
          List.mem_toFinset]
        constructor
        · rintro ⟨hx1, hx2⟩
          exact ⟨hx1, fun h => hx2 (Or.inr h)⟩
        · rintro ⟨hx1, hx2⟩
          refine ⟨hx1, fun h => ?_⟩
          rcases h with h | h
          · subst h; exact hu (List.mem_toFinset.2 hx1)
          · exact hx2 h
      have hdep : dependentsOf tasks current = [] :=
        dependentsOf_eq_nil_of_not_mem_univ (fun h => hu (List.mem_toFinset.2 h))
      rw [hcv, hdep]
      exact Prod.Lex.right _ (by simp)

/-- Embeds `wouldCreateCycle` (useTaskStore.ts lines 66-97): DFS from
    `targetId` along the dependents relation, looking for `sourceId`. -/
def wouldCreateCycle (tasks : List Task) (sourceId targetId : String) : Bool :=
  dfsVisit tasks sourceId [] [targetId]

theorem dfsVisit_true_reaches (tasks : List Task) (src : String) :
    ∀ visited stack, dfsVisit tasks src visited stack = true →
      ∃ x ∈ stack, Relation.ReflTransGen (dependentsRel tasks) x src := by
  intro visited stack
  induction visited, stack using dfsVisit.induct tasks src with
  | case1 visited =>
    intro h
    simp [dfsVisit] at h
  | case2 visited rest =>
    intro _
    exact ⟨src, List.mem_cons_self _ _, Relation.ReflTransGen.refl⟩
  | case3 visited current rest hsrc hmem ih =>
    intro h
    rw [dfsVisit, if_neg hsrc, if_pos hmem] at h
    rcases ih h with ⟨x, hx, hr⟩
    exact ⟨x, List.mem_cons_of_mem _ hx, hr⟩
  | case4 visited current rest hsrc hmem ih =>
    intro h
    rw [dfsVisit, if_neg hsrc, if_neg hmem] at h
    rcases ih h with ⟨x, hx, hr⟩
    rcases List.mem_append.1 hx with hx | hx
    · have hrel : dependentsRel tasks current x :=
        mem_dependentsOf.1 (List.mem_reverse.1 hx)
      exact ⟨current, List.mem_cons_self _ _, Relation.ReflTransGen.head hrel hr⟩
    · exact ⟨x, List.mem_cons_of_mem _ hx, hr⟩

theorem reach_mem_of_closed {r : String → String → Prop} {V : List String}
    (hcl : ∀ v ∈ V, ∀ y, r v y → y ∈ V) {a b : String}
    (h : Relation.ReflTransGen r a b) (ha : a ∈ V) : b ∈ V := by
  induction h with
  | refl => exact ha
  | tail _ hs ih => exact hcl _ ih _ hs

theorem dfsVisit_false_not_reach (tasks : List Task) (src : String) :
    ∀ visited stack, dfsVisit tasks src visited stack = false →
      (∀ v ∈ visited, v ≠ src) →
      (∀ v ∈ visited, ∀ y, dependentsRel tasks v y → y ∈ visited ∨ y ∈ stack) →
      ∀ x, (x ∈ visited ∨ x ∈ stack) →
        ¬ Relation.ReflTransGen (dependentsRel tasks) x src := by
  intro visited stack
  induction visited, stack using dfsVisit.induct tasks src with
  | case1 visited =>
    intro _ hns hcl x hx hreach
    have hxv : x ∈ visited := by
      rcases hx with hx | hx
      · exact hx
      · simp at hx
    have hclosed : ∀ v ∈ visited, ∀ y, dependentsRel tasks v y → y ∈ visited := by
      intro v hv y hy
      rcases hcl v hv y hy with h' | h'
      · exact h'
      · simp at h'
    exact hns src (reach_mem_of_closed hclosed hreach hxv) rfl
  | case2 visited rest =>
    intro h _ _ _ _
    rw [dfsVisit, if_pos rfl] at h
    exact absurd h (by simp)
  | case3 visited current rest hsrc hmem ih =>
    intro h hns hcl x hx
    rw [dfsVisit, if_neg hsrc, if_pos hmem] at h
    apply ih h hns
    · intro v hv y hy
      rcases hcl v hv y hy with h' | h'
      · exact Or.inl h'
      · rcases List.mem_cons.1 h' with h' | h'
        · exact Or.inl (h' ▸ hmem)
        · exact Or.inr h'
    · rcases hx with hx | hx
      · exact Or.inl hx
      · rcases List.mem_cons.1 hx with hx | hx
        · exact Or.inl (hx ▸ hmem)
        · exact Or.inr hx
  | case4 visited current rest hsrc hmem ih =>
    intro h hns hcl x hx
    rw [dfsVisit, if_neg hsrc, if_neg hmem] at h
    apply ih h
    · intro v hv
      rcases List.mem_cons.1 hv with hv | hv
      · exact hv ▸ hsrc
      · exact hns v hv
    · intro v hv y hy
      rcases List.mem_cons.1 hv with hv | hv
      · subst hv
        exact Or.inr (List.mem_append.2 (Or.inl (List.mem_reverse.2
          (mem_dependentsOf.2 hy))))
      · rcases hcl v hv y hy with h' | h'
        · exact Or.inl (List.mem_cons_of_mem _ h')
        · rcases List.mem_cons.1 h' with h' | h'
          · exact Or.inl (h' ▸ List.mem_cons_self _ _)
          · exact Or.inr (List.mem_append.2 (Or.inr h'))
    · rcases hx with hx | hx
      · exact Or.inl (List.mem_cons_of_mem _ hx)
      · rcases List.mem_cons.1 hx with hx | hx
        · exact Or.inl (hx ▸ List.mem_cons_self _ _)
        · exact Or.inr (List.mem_append.2 (Or.inr hx))

/-- Correctness of the embedded DFS: `wouldCreateCycle tasks src tgt` is `true`
    exactly when `src` is reachable from `tgt` in the dependents graph. -/
theorem wouldCreateCycle_iff (tasks : List Task) (src tgt : String) :
    wouldCreateCycle tasks src tgt = true ↔
      Relation.ReflTransGen (dependentsRel tasks) tgt src := by
  constructor
  · intro h
    rcases dfsVisit_true_reaches tasks src [] [tgt] h with ⟨x, hx, hr⟩
    simp only [List.mem_singleton] at hx
    exact hx ▸ hr
  · intro hr
    by_contra h
    have h' : dfsVisit tasks src [] [tgt] = false := by
      cases hh : dfsVisit tasks src [] [tgt]
      · rfl
      · exact absurd hh h
    exact dfsVisit_false_not_reach tasks src [] [tgt] h'
      (by simp) (by simp) tgt (Or.inr (by simp)) hr

/-- The store's persisted/reactive state: the task collection plus the
    current selection (useTaskStore.ts lines 27-31). -/
structure TaskState where
  tasks : List Task
  selectedTaskId : Option String
deriving DecidableEq, Repr

/-- Embeds `addTask` (useTaskStore.ts lines 182-198).  The fresh uuid and the
    `Date.now()` timestamp are passed in as parameters `newId` and `now`. -/
def addTask (newId title : String) (now : Int) (s : TaskState) : TaskState :=
  { s with tasks :=
      { id := newId, title := title, status := Status.todo, createdAt := now,
        position := some (getInitialPosition s.tasks.length),
        dependencies := [], dueDate := none, description := "",
        subtasks := [] } :: s.tasks }

/-- Embeds `toggleTask` (useTaskStore.ts lines 200-207). -/
def toggleTask (id : String) (s : TaskState) : TaskState :=
  { s with tasks := s.tasks.map fun t =>
      if t.id = id then
        { t with status := if t.status = Status.done then Status.todo else Status.done }
      else t }

/-- Embeds `deleteTask` (useTaskStore.ts lines 209-218): drop the task and
    strip its id from every remaining task's `dependencies`. -/
def deleteTask (id : String) (s : TaskState) : TaskState :=
  { tasks := (s.tasks.filter fun t => t.id ≠ id).map fun t =>
      { t with dependencies := t.dependencies.filter fun depId => depId ≠ id },
    selectedTaskId :=
      if s.selectedTaskId = some id then none else s.selectedTaskId }

/-- A `Partial<Task>` record: `some` marks a field present in the update. -/
structure TaskUpdate where
  id : Option String := none
  title : Option String := none
  status : Option Status := none
  createdAt : Option Int := none
  position : Option (Option Pos) := none
  dependencies : Option (List String) := none
  dueDate : Option (Option Int) := none
  description : Option String := none
  subtasks : Option (List Subtask) := none
deriving DecidableEq, Repr

/-- The JS spread `{ ...task, ...updates }`: fields present in the update
    overwrite the task's fields. -/
def applyUpdate (u : TaskUpdate) (t : Task) : Task :=
  { id := u.id.getD t.id, title := u.title.getD t.title,
    status := u.status.getD t.status, createdAt := u.createdAt.getD t.createdAt,
    position := u.position.getD t.position,
    dependencies := u.dependencies.getD t.dependencies,
    dueDate := u.dueDate.getD t.dueDate,
    description := u.description.getD t.description,
    subtasks := u.subtasks.getD t.subtasks }

/-- Embeds `updateTask` (useTaskStore.ts lines 220-225). -/
def updateTask (id : String) (u : TaskUpdate) (s : TaskState) : TaskState :=
  { s with tasks := s.tasks.map fun t => if t.id = id then applyUpdate u t else t }

/-- Embeds `updateTaskPosition` (useTaskStore.ts lines 227-240). -/
def updateTaskPosition (id : String) (p : Pos) (s : TaskState) : TaskState :=
  { s with tasks := s.tasks.map fun t =>
      if t.id = id then
        { t with position := some { x := snapToGrid p.x, y := snapToGrid p.y } }
      else t }

/-- The per-task body of `cleanupPositions` (useTaskStore.ts lines 244-256)
    at collection index `i`.  On the typed `Task` the `|| []` / `?? null`
    backfills are identities and are written as such. -/
def fixTask (i : Nat) (t : Task) : Task :=
  { t with
    position := some (match t.position with
      | some p => { x := snapToGrid p.x, y := snapToGrid p.y }
      | none => getInitialPosition i),
    dependencies := t.dependencies, dueDate := t.dueDate,
    description := t.description, subtasks := t.subtasks }

/-- The index-carrying map of `cleanupPositions`: `tasks.map((task, index) => ...)`. -/
def cleanupFrom (i : Nat) : List Task → List Task
  | [] => []
  | t :: ts => fixTask i t :: cleanupFrom (i + 1) ts

/-- Embeds `cleanupPositions` (useTaskStore.ts lines 242-257). -/
def cleanupPositions (s : TaskState) : TaskState :=
  { s with tasks := cleanupFrom 0 s.tasks }

/-- Embeds `addDependency` (useTaskStore.ts lines 259-287).  The second guard
    mirrors the optional chaining `targetTask?.dependencies?.includes(sourceId)`. -/
def addDependency (sourceId targetId : String) (s : TaskState) : Bool × TaskState :=
  if sourceId = targetId then (false, s)
  else if ((s.tasks.find? fun t => t.id = targetId).map fun t =>
      t.dependencies.contains sourceId).getD false then (false, s)
  else if wouldCreateCycle s.tasks sourceId targetId then (false, s)
  else (true, { s with tasks := s.tasks.map fun t =>
      if t.id = targetId then
        { t with dependencies := t.dependencies ++ [sourceId] }
      else t })

/-- Embeds `removeDependency` (useTaskStore.ts lines 289-299). -/
def removeDependency (sourceId targetId : String) (s : TaskState) : TaskState :=
  { s with tasks := s.tasks.map fun t =>
      if t.id = targetId then
        { t with dependencies := t.dependencies.filter fun id => id ≠ sourceId }
      else t }

/-- Embeds `addSubtask` (useTaskStore.ts lines 305-318); the fresh subtask
    uuid is the parameter `subId`. -/
def addSubtask (taskId title subId : String) (s : TaskState) : TaskState :=
  { s with tasks := s.tasks.map fun t =>
      if t.id = taskId then
        { t with subtasks := t.subtasks ++ [{ id := subId, title := title, done := false }] }
      else t }

/-- Embeds `toggleSubtask` (useTaskStore.ts lines 320-332). -/
def toggleSubtask (taskId subtaskId : String) (s : TaskState) : TaskState :=
  { s with tasks := s.tasks.map fun t =>
      if t.id = taskId then
        { t with subtasks := t.subtasks.map fun sub =>
            if sub.id = subtaskId then { sub with done := !sub.done } else sub }
      else t }

/-- Embeds `deleteSubtask` (useTaskStore.ts lines 334-344). -/
def deleteSubtask (taskId subtaskId : String) (s : TaskState) : TaskState :=
  { s with tasks := s.tasks.map fun t =>
      if t.id = taskId then
        { t with subtasks := t.subtasks.filter fun sub => sub.id ≠ subtaskId }
      else t }

/-- Embeds the selector `isTaskBlocked` (useTaskStore.ts lines 104-112).
    `depTask && depTask.status === 'todo'` with an undefined lookup is falsy,
    hence the `none => false` arm. -/
def isTaskBlocked (task : Task) (allTasks : List Task) : Bool :=
  if task.dependencies.isEmpty then false
  else task.dependencies.any fun depId =>
    match allTasks.find? fun t => t.id = depId with
    | some depTask => depTask.status = Status.todo
    | none => false

/-- Embeds `getTaskPriority`, the bucket function inside `getSortedTasks`
    (useTaskStore.ts lines 118-135). -/
def getTaskPriority (tasks : List Task) (task : Task) : Nat :=
  if task.dependencies.isEmpty then 0
  else if task.dependencies.all (fun depId =>
      match tasks.find? fun t => t.id = depId with
      | some depTask => depTask.status = Status.done
      | none => false) then 1
  else 2

/-- Embeds the comparator of `getSortedTasks` (useTaskStore.ts lines 137-146):
    `priorityA - priorityB` when the buckets differ, else `b.createdAt - a.createdAt`. -/
def taskCompare (tasks : List Task) (a b : Task) : Int :=
  if getTaskPriority tasks a ≠ getTaskPriority tasks b then
    (getTaskPriority tasks a : Int) - (getTaskPriority tasks b : Int)
  else b.createdAt - a.createdAt

/-- Embeds `getSortedTasks` (useTaskStore.ts lines 117-147): a stable sort of
    a copy of the collection by the comparator (JS `Array.prototype.sort` is
    stable; modelled with `List.insertionSort`). -/
def getSortedTasks (tasks : List Task) : List Task :=
  List.insertionSort (fun a b => taskCompare tasks a b ≤ 0) tasks

inductive DueStatus where
  | overdue
  | urgent
  | soon
  | normal
deriving DecidableEq, Repr

/-- Embeds `getDueDateStatus` (useTaskStore.ts lines 152-163), with the
    current time `Date.now()` passed in as `now`.  `!dueDate` is true for
    `null` and for the number `0`; the float comparisons
    `diffMs / 86400000 < c` are exact on these magnitudes and are written as
    the equivalent integer comparisons `diffMs < c * 86400000`. -/
def getDueDateStatus (dueDate : Option Int) (now : Int) : Option DueStatus :=
  match dueDate with
  | none => none
  | some d =>
    if d = 0 then none
    else
      let diffMs := d - now
      if diffMs < 0 then some DueStatus.overdue
      else if diffMs < 86400000 then some DueStatus.urgent
      else if diffMs < 3 * 86400000 then some DueStatus.soon
      else some DueStatus.normal

/-- A task object as found in a persisted record of an older schema version:
    the fields added over time (`dependencies`, `dueDate`, `description`,
    `subtasks`) may be absent (`none` at the outer `Option`), and `position`
    was always optional. -/
structure PTask where
  id : String
  title : String
  status : Status
  createdAt : Int
  position : Option Pos
  dependencies : Option (List String)
  dueDate : Option (Option Int)
  description : Option String
  subtasks : Option (List Subtask)
deriving DecidableEq, Repr

/-- The per-task backfill of `migrate` (useTaskStore.ts lines 359-365):
    `dependencies: task.dependencies || []`, `dueDate: task.dueDate ?? null`,
    `description: task.description ?? ''`, `subtasks: task.subtasks || []`. -/
def migrateTask (t : PTask) : Task :=
  { id := t.id, title := t.title, status := t.status, createdAt := t.createdAt,
    position := t.position,
    dependencies := t.dependencies.getD [],
    dueDate := t.dueDate.getD none,
    description := t.description.getD "",
    subtasks := t.subtasks.getD [] }

/-- Re-reads a fully shaped `Task` as a persisted task (every optional field
    present), as when a current-version record is saved and loaded again. -/
def injectTask (t : Task) : PTask :=
  { id := t.id, title := t.title, status := t.status, createdAt := t.createdAt,
    position := t.position,
    dependencies := some t.dependencies,
    dueDate := some t.dueDate,
    description := some t.description,
    subtasks := some t.subtasks }

/-- Embeds `migrate` (useTaskStore.ts lines 353-370): when the stored version
    is older than the current version 3 and the record has a `tasks` field,
    each task is backfilled; otherwise the record is returned unchanged. -/
def migrate (version : Nat) (tasks : Option (List PTask)) : Option (List PTask) :=
  if version < 3 then
    tasks.map (List.map fun t => injectTask (migrateTask t))
  else tasks

/-- The full load-time repair step of the persisted record: the version
    migration (useTaskStore.ts lines 353-370) followed by the
    start-of-session `cleanupPositions` pass (lines 242-257, run from the
    views' mount effects), read back as current-shape tasks. -/
def loadMigrated (version : Nat) (tasks : Option (List PTask)) : Option (List Task) :=
  (migrate version tasks).map fun ps => cleanupFrom 0 (ps.map migrateTask)

/-- A node of the canvas view, as far as the layout helper reads it
    (CanvasView.tsx): an id and a position. -/
structure FlowNode where
  id : String
  position : Pos
deriving DecidableEq, Repr

/-- Embeds `isOverlapping` (CanvasView.tsx lines 178-189), with
    NODE_WIDTH = 200 and NODE_HEIGHT = 60 (lines 24-25). -/
def isOverlapping (p1 p2 : Pos) (padding : Int) : Bool :=
  p1.x < p2.x + 200 + padding && p1.x + 200 + padding > p2.x &&
  p1.y < p2.y + 60 + padding && p1.y + 60 + padding > p2.y

/-- One advance of the probe position in `getNonOverlappingPosition`
    (CanvasView.tsx lines 214-219): step one row down; every fifth attempt
    instead moves one column right and resets `y` to the snapped drop row. -/
def advancePos (startY : Int) (pos : Pos) (attempts : Nat) : Pos :=
  if attempts % 5 = 4 then
    { x := pos.x + 200 + GRID_SIZE, y := snapToGrid startY }
  else
    { x := pos.x, y := pos.y + 60 + GRID_SIZE }

/-- Embeds the `while (attempts < maxAttempts)` loop of
    `getNonOverlappingPosition` (CanvasView.tsx lines 202-224). -/
def probeLoop (others : List Pos) (startY : Int) (pos : Pos) (attempts : Nat) : Pos :=
  if attempts < 50 then
    if others.any (fun p => isOverlapping pos p 20) then
      probeLoop others startY (advancePos startY pos attempts) (attempts + 1)
    else pos
  else pos
termination_by 50 - attempts

/-- Embeds `getNonOverlappingPosition` (CanvasView.tsx lines 192-225). -/
def getNonOverlappingPosition (draggedNode : FlowNode) (allNodes : List FlowNode) : Pos :=
  probeLoop
    ((allNodes.filter fun n => n.id ≠ draggedNode.id).map fun n => n.position)
    draggedNode.position.y
    { x := snapToGrid draggedNode.position.x, y := snapToGrid draggedNode.position.y }
    0

/-- The deterministic sequence of positions the loop probes, which does not
    depend on the collision outcomes: probe `n + 1` is probe `n` advanced. -/
def probeSeq (startX startY : Int) : Nat → Pos
  | 0 => { x := snapToGrid startX, y := snapToGrid startY }
  | n + 1 => advancePos startY (probeSeq startX startY n) n

/-- A position that overlaps (per `isOverlapping` with the loop's padding 20)
    with none of the other nodes' positions. -/
def collisionFree (others : List Pos) (pos : Pos) : Prop :=
  ∀ p ∈ others, isOverlapping pos p 20 = false

/-- The dependency graph has no (nonempty) cycle through any id. -/
def Acyclic (tasks : List Task) : Prop :=
  ∀ a, ¬ Relation.TransGen (dependentsRel tasks) a a

/-- The §3 graph invariants of the spec: no self-dependency, no duplicate
    entry inside a `dependencies` list, and acyclicity. -/
def DepInvariant (tasks : List Task) : Prop :=
  (∀ t ∈ tasks, t.id ∉ t.dependencies) ∧
  (∀ t ∈ tasks, t.dependencies.Nodup) ∧
  Acyclic tasks

theorem transGen_head_decomp {α : Type} {r : α → α → Prop} {a b : α}
    (h : Relation.TransGen r a b) :
    ∃ c, r a c ∧ Relation.ReflTransGen r c b := by
  induction h with
  | single h => exact ⟨_, h, Relation.ReflTransGen.refl⟩
  | tail _ h2 ih =>
    rcases ih with ⟨c, hac, hcb⟩
    exact ⟨c, hac, hcb.tail h2⟩

theorem rtg_add_edge {α : Type} {r r' : α → α → Prop} {u v : α}
    (hsub : ∀ a b, r' a b → r a b ∨ (a = u ∧ b = v))
    (hnr : ¬ Relation.ReflTransGen r v u) :
    ∀ a b, Relation.ReflTransGen r' a b →
      Relation.ReflTransGen r a b ∨
        (Relation.ReflTransGen r a u ∧ Relation.ReflTransGen r v b) := by
  intro a b h
  induction h using Relation.ReflTransGen.head_induction_on with
  | refl => exact Or.inl Relation.ReflTransGen.refl
  | head hstep _ ih =>
    rename_i x y _
    rcases hsub x y hstep with hxy | ⟨hxu, hyv⟩
    · rcases ih with ih | ⟨ih1, ih2⟩
      · exact Or.inl (Relation.ReflTransGen.head hxy ih)
      · exact Or.inr ⟨Relation.ReflTransGen.head hxy ih1, ih2⟩
    · subst hxu; subst hyv
      rcases ih with ih | ⟨ih1, _⟩
      · exact Or.inr ⟨Relation.ReflTransGen.refl, ih⟩
      · exact absurd ih1 hnr

/-- Adding the single edge `u → v` to an acyclic relation keeps it acyclic
    provided `u` is not reachable from `v`. -/
theorem acyclic_add_edge {α : Type} {r r' : α → α → Prop} {u v : α}
    (hsub : ∀ a b, r' a b → r a b ∨ (a = u ∧ b = v))
    (hnr : ¬ Relation.ReflTransGen r v u)
    (hacy : ∀ a, ¬ Relation.TransGen r a a) :
    ∀ a, ¬ Relation.TransGen r' a a := by
  intro a h
  rcases transGen_head_decomp h with ⟨c, hac, hca⟩
  rcases rtg_add_edge hsub hnr c a hca with hca' | ⟨hcu, hva⟩
  · rcases hsub a c hac with hac' | ⟨hau, hcv⟩
    · exact hacy a (Relation.TransGen.head' hac' hca')
    · subst hau; subst hcv
      exact hnr hca'
  · rcases hsub a c hac with hac' | ⟨hau, hcv⟩
    · exact hnr (hva.trans (Relation.ReflTransGen.head hac' hcu))
    · subst hau; subst hcv
      exact hnr hcu

/-- A rank function whose value strictly increases along every edge
    certifies acyclicity. -/
theorem acyclic_of_rank {α : Type} {r : α → α → Prop} (f : α → Nat)
    (hf : ∀ a b, r a b → f a < f b) : ∀ a, ¬ Relation.TransGen r a a := by
  intro a h
  have : ∀ x y, Relation.TransGen r x y → f x < f y := by
    intro x y hxy
    induction hxy with
    | single h1 => exact hf _ _ h1
    | tail _ h2 ih => exact ih.trans (hf _ _ h2)
  exact lt_irrefl (f a) (this a a h)

/-- If every task of `ts'` has a same-id counterpart in `ts` whose
    `dependencies` list extends its own as a sublist, then the §3 invariants
    transfer from `ts` to `ts'`. -/
theorem depInvariant_of_sublist {ts ts' : List Task}
    (H : ∀ t' ∈ ts', ∃ t ∈ ts, t'.id = t.id ∧ t'.dependencies.Sublist t.dependencies)
    (hinv : DepInvariant ts) : DepInvariant ts' := by
  obtain ⟨hself, hnd, hacy⟩ := hinv
  have hsub : ∀ a b, dependentsRel ts' a b → dependentsRel ts a b := by
    rintro a b ⟨t', ht', hid, hdep⟩
    rcases H t' ht' with ⟨t, ht, hids, hsl⟩
    exact ⟨t, ht, hids ▸ hid, hsl.mem hdep⟩
  refine ⟨?_, ?_, ?_⟩
  · intro t' ht' hmem
    rcases H t' ht' with ⟨t, ht, hids, hsl⟩
    exact hself t ht (hids ▸ hsl.mem hmem)
  · intro t' ht'
    rcases H t' ht' with ⟨t, ht, _, hsl⟩
    exact (hnd t ht).sublist hsl
  · intro a h
    exact hacy a (h.mono hsub)

/-- A map that changes neither `id` nor `dependencies` of any task preserves
    the §3 invariants. -/
theorem depInvariant_map {ts : List Task} {f : Task → Task}
    (hid : ∀ t, (f t).id = t.id)
    (hdep : ∀ t, (f t).dependencies = t.dependencies)
    (hinv : DepInvariant ts) : DepInvariant (ts.map f) := by
  apply depInvariant_of_sublist ?_ hinv
  intro t' ht'
  rcases List.mem_map.1 ht' with ⟨t, ht, rfl⟩
  exact ⟨t, ht, hid t, by rw [hdep t]⟩

theorem id_unique_of_nodup {ts : List Task}
    (hids : (ts.map Task.id).Nodup) {t t' : Task}
    (ht : t ∈ ts) (ht' : t' ∈ ts) (h : t.id = t'.id) : t = t' := by
  have := List.inj_on_of_nodup_map hids
  exact this ht ht' h

theorem addDependency_dup_guard {s : TaskState} {src tgt : String}
    (hnoedge : ∀ t ∈ s.tasks.find? fun t => t.id = tgt, src ∉ t.dependencies) :
    ((s.tasks.find? fun t => t.id = tgt).map fun t =>
      t.dependencies.contains src).getD false = false := by
  cases hf : s.tasks.find? fun t => t.id = tgt with
  | none => rfl
  | some t =>
    have h1 : src ∉ t.dependencies := hnoedge t (Option.mem_def.2 hf)
    simp [h1]

/-- C1: with `sourceId ≠ targetId` and no existing edge in the target task's
    dependencies, `addDependency` returns `true` iff no path runs from
    `targetId` back to `sourceId` in the dependents graph, and exactly on
    `true` the edge is appended to the target task's dependencies (on `false`
    the state is untouched). -/
theorem addDependency_succeeds_iff_no_path (s : TaskState) (src tgt : String)
    (hne : src ≠ tgt)
    (hnoedge : ∀ t ∈ s.tasks.find? fun t => t.id = tgt, src ∉ t.dependencies) :
    ((addDependency src tgt s).1 = true ↔
      ¬ Relation.ReflTransGen (dependentsRel s.tasks) tgt src) ∧
    ((addDependency src tgt s).1 = true →
      (addDependency src tgt s).2.tasks = s.tasks.map fun t =>
        if t.id = tgt then { t with dependencies := t.dependencies ++ [src] }
        else t) ∧
    ((addDependency src tgt s).1 = false → (addDependency src tgt s).2 = s) := by
  have hguard := addDependency_dup_guard hnoedge
  rw [addDependency, if_neg hne]
  rw [if_neg (by rw [hguard]; exact Bool.false_ne_true)]
  cases hcyc : wouldCreateCycle s.tasks src tgt with
  | true =>
    rw [if_pos rfl]
    refine ⟨?_, ?_, ?_⟩
    · simp only [Bool.false_eq_true, false_iff, not_not]
      exact (wouldCreateCycle_iff s.tasks src tgt).1 hcyc
    · intro h
      exact absurd h (by simp)
    · intro _
      rfl
  | false =>
    rw [if_neg Bool.false_ne_true]
    refine ⟨?_, ?_, ?_⟩
    · simp only [true_iff]
      intro hr
      rw [(wouldCreateCycle_iff s.tasks src tgt).2 hr] at hcyc
      exact absurd hcyc (by simp)
    · intro _
      rfl
    · intro h
      exact absurd h (by simp)

/-- A concrete task record used by the witnesses below. -/
def mkTask (i : String) (deps : List String) (ct : Int) : Task :=
  { id := i, title := "", status := Status.todo, createdAt := ct,
    position := none, dependencies := deps, dueDate := none,
    description := "", subtasks := [] }

def taskA : Task := mkTask "a" [] 0
def taskB : Task := mkTask "b" ["a"] 1
def taskC : Task := mkTask "c" ["b"] 2

/-- The chain a ← b ← c ("b depends on a, c depends on b"). -/
def chainState : TaskState := { tasks := [taskA, taskB, taskC], selectedTaskId := none }

def chainRank (x : String) : Nat :=
  if x = "b" then 1 else if x = "c" then 2 else 0

theorem chain_rank_increases :
    ∀ a b, dependentsRel chainState.tasks a b → chainRank a < chainRank b := by
  rintro a b ⟨t, ht, hid, hdep⟩
  fin_cases ht
  · exact absurd hdep (by simp [taskA, mkTask])
  · simp only [taskB, mkTask, List.mem_singleton] at hid hdep
    subst hid; subst hdep
    decide
  · simp only [taskC, mkTask, List.mem_singleton] at hid hdep
    subst hid; subst hdep
    decide

theorem chain_acyclic : Acyclic chainState.tasks :=
  acyclic_of_rank chainRank chain_rank_increases

theorem addDependency_succeeds_iff_no_path_witness :
    ((addDependency "a" "c" chainState).1 = true ↔
      ¬ Relation.ReflTransGen (dependentsRel chainState.tasks) "c" "a") ∧
    ((addDependency "a" "c" chainState).1 = true →
      (addDependency "a" "c" chainState).2.tasks = chainState.tasks.map fun t =>
        if t.id = "c" then { t with dependencies := t.dependencies ++ ["a"] }
        else t) ∧
    ((addDependency "a" "c" chainState).1 = false →
      (addDependency "a" "c" chainState).2 = chainState) :=
  addDependency_succeeds_iff_no_path chainState "a" "c" (by decide)
    (by
      intro t ht
      rw [Option.mem_def] at ht
      simp [chainState, taskA, taskB, taskC, mkTask, List.find?] at ht
      subst ht
      decide)

/-- C3: after `deleteTask id`, no remaining task carries that id and no
    remaining task's `dependencies` contain it (referential integrity). -/
theorem deleteTask_no_dangling (s : TaskState) (i : String) :
    ∀ t ∈ (deleteTask i s).tasks, t.id ≠ i ∧ i ∉ t.dependencies := by
  intro t ht
  simp only [deleteTask, List.mem_map, List.mem_filter] at ht
  rcases ht with ⟨t₀, ⟨_, hne⟩, rfl⟩
  constructor
  · simpa using hne
  · intro hmem
    have := List.of_mem_filter hmem
    simp at this

theorem deleteTask_no_dangling_witness :
    (mkTask "c" [] 2).id ≠ "b" ∧ "b" ∉ (mkTask "c" [] 2).dependencies :=
  deleteTask_no_dangling chainState "b" (mkTask "c" [] 2) (by decide)

/-- C4: `isTaskBlocked` is true iff some dependency id resolves (via the
    first-match lookup) to a task with status `todo`; with no dependencies,
    or when an id resolves to no task, it is not blocked. -/
theorem isTaskBlocked_iff (task : Task) (allTasks : List Task) :
    (isTaskBlocked task allTasks = true ↔
      ∃ d ∈ task.dependencies, ∃ dt,
        (allTasks.find? fun t => t.id = d) = some dt ∧ dt.status = Status.todo) ∧
    (task.dependencies = [] → isTaskBlocked task allTasks = false) := by
  constructor
  · rw [isTaskBlocked]
    split
    · rename_i hemp
      simp only [Bool.false_eq_true, false_iff]
      rintro ⟨d, hd, _⟩
      rw [List.isEmpty_iff] at hemp
      rw [hemp] at hd
      exact absurd hd (List.not_mem_nil d)
    · rw [List.any_eq_true]
      constructor
      · rintro ⟨d, hd, hmatch⟩
        cases hf : allTasks.find? fun t => t.id = d with
        | none => rw [hf] at hmatch; simp at hmatch
        | some dt =>
          rw [hf] at hmatch
          simp only [decide_eq_true_eq] at hmatch
          exact ⟨d, hd, dt, hf, hmatch⟩
      · rintro ⟨d, hd, dt, hf, hst⟩
        exact ⟨d, hd, by rw [hf]; simp [hst]⟩
  · intro h
    rw [isTaskBlocked, h]
    rfl

theorem isTaskBlocked_iff_witness : isTaskBlocked taskA [taskA, taskB] = false :=
  (isTaskBlocked_iff taskA [taskA, taskB]).2 rfl

/-- C7 counterexample: the code treats the valid timestamp `0` as "no due
    date" (`!dueDate` is true for the number 0), so at `dueDate = some 0`,
    `now = 100` it returns `none` although the due date is not null (the
    claim would demand `overdue` there). -/
theorem getDueDateStatus_zero_cex :
    getDueDateStatus (some 0) 100 = none ∧ some (0 : Int) ≠ (none : Option Int) :=
  ⟨rfl, by decide⟩

/-- C7 (amended): `getDueDateStatus` returns `none` exactly on a null due
    date or the timestamp `0`; otherwise the four statuses partition time by
    elapsed milliseconds: past → overdue, within 24h → urgent, within 3 days
    → soon, further out → normal. -/
theorem getDueDateStatus_classification (d : Option Int) (now : Int) :
    (getDueDateStatus d now = none ↔ d = none ∨ d = some 0) ∧
    ∀ v, d = some v → v ≠ 0 →
      ((getDueDateStatus d now = some DueStatus.overdue ↔ v < now) ∧
       (getDueDateStatus d now = some DueStatus.urgent ↔
         now ≤ v ∧ v - now < 86400000) ∧
       (getDueDateStatus d now = some DueStatus.soon ↔
         86400000 ≤ v - now ∧ v - now < 3 * 86400000) ∧
       (getDueDateStatus d now = some DueStatus.normal ↔ 3 * 86400000 ≤ v - now)) := by
  cases d with
  | none => simp [getDueDateStatus]
  | some v =>
    by_cases hv : v = 0
    · subst hv
      simp [getDueDateStatus]
    · constructor
      · simp only [getDueDateStatus, if_neg hv]
        split_ifs <;> simp [hv]
      · rintro w hw hw0
        injection hw with hw
        subst hw
        simp only [getDueDateStatus, if_neg hv]
        split_ifs with h1 h2 h3 <;>
          refine ⟨?_, ?_, ?_, ?_⟩ <;> simp <;> omega

theorem getDueDateStatus_classification_witness :
    getDueDateStatus (some 200) 100 = some DueStatus.urgent :=
  ((((getDueDateStatus_classification (some 200) 100).2 200 rfl (by decide)).2).1).2
    (by constructor <;> decide)

/-- C9 counterexample: `deleteTask` with an id that matches no task is not a
    no-op on the collection when some task's `dependencies` dangle on that id
    (the dep-stripping map still fires). -/
def ghostState : TaskState :=
  { tasks := [mkTask "a" ["g"] 0], selectedTaskId := none }

theorem deleteTask_missing_id_cex :
    (∀ t ∈ ghostState.tasks, t.id ≠ "g") ∧
    (deleteTask "g" ghostState).tasks ≠ ghostState.tasks := by
  constructor
  · decide
  · decide

/-- C9 (amended): failing invocations are no-ops on the collection —
    toggling/updating a missing id, deleting a missing id *provided no
    dependencies dangle on it*, removing an absent edge, and every
    `addDependency` call that returns false. -/
theorem failing_ops_noop (s : TaskState) (i src tgt : String) (u : TaskUpdate) :
    ((∀ t ∈ s.tasks, t.id ≠ i) →
      (toggleTask i s).tasks = s.tasks ∧
      (updateTask i u s).tasks = s.tasks ∧
      ((∀ t ∈ s.tasks, i ∉ t.dependencies) → (deleteTask i s).tasks = s.tasks)) ∧
    ((∀ t ∈ s.tasks, t.id = tgt → src ∉ t.dependencies) →
      (removeDependency src tgt s).tasks = s.tasks) ∧
    ((addDependency src tgt s).1 = false → (addDependency src tgt s).2 = s) := by
  refine ⟨?_, ?_, ?_⟩
  · intro hmiss
    refine ⟨?_, ?_, ?_⟩
    · rw [toggleTask]
      have h0 : ∀ t ∈ s.tasks, (if t.id = i then
          { t with status := if t.status = Status.done then Status.todo
            else Status.done } else t) = t := by
        intro t ht
        rw [if_neg (hmiss t ht)]
      rw [List.map_congr_left h0]
      simp
    · rw [updateTask]
      have h0 : ∀ t ∈ s.tasks, (if t.id = i then applyUpdate u t else t) = t := by
        intro t ht
        rw [if_neg (hmiss t ht)]
      rw [List.map_congr_left h0]
      simp
    · intro hnodep
      rw [deleteTask]
      have hfil : s.tasks.filter (fun t => t.id ≠ i) = s.tasks :=
        List.filter_eq_self.2 fun t ht => by simpa using hmiss t ht
      rw [hfil]
      have h0 : ∀ t ∈ s.tasks, ({ t with
          dependencies := t.dependencies.filter fun depId => depId ≠ i } : Task) = t := by
        intro t ht
        have h1 : t.dependencies.filter (fun depId => depId ≠ i) = t.dependencies :=
          List.filter_eq_self.2 fun d hd => by
            have hne : d ≠ i := fun hdi => hnodep t ht (hdi ▸ hd)
            simp [hne]
        rw [h1]
      rw [List.map_congr_left h0]
      simp
  · intro hnoedge
    rw [removeDependency]
    have h0 : ∀ t ∈ s.tasks, (if t.id = tgt then
        { t with dependencies := t.dependencies.filter fun id => id ≠ src }
        else t) = t := by
      intro t ht
      split
      · rename_i hid
        have h1 : t.dependencies.filter (fun id => id ≠ src) = t.dependencies :=
          List.filter_eq_self.2 fun d hd => by
            have hne : d ≠ src := fun hds => hnoedge t ht hid (hds ▸ hd)
            simp [hne]
        rw [h1]
      · rfl
    rw [List.map_congr_left h0]
    simp
  · rw [addDependency]
    split_ifs <;> intro h <;> first | rfl | exact absurd h (by simp)

theorem failing_ops_noop_witness :
    (toggleTask "z" chainState).tasks = chainState.tasks ∧
    (removeDependency "q" "z" chainState).tasks = chainState.tasks :=
  ⟨((failing_ops_noop chainState "z" "q" "z" {}).1 (by decide)).1,
   (failing_ops_noop chainState "z" "q" "z" {}).2.1 (by decide)⟩

theorem addDependency_cases (s : TaskState) (src tgt : String) :
    addDependency src tgt s = (false, s) ∨
    (src ≠ tgt ∧ wouldCreateCycle s.tasks src tgt = false ∧
     (∀ t, (s.tasks.find? fun t => t.id = tgt) = some t → src ∉ t.dependencies) ∧
     addDependency src tgt s = (true, { s with tasks := s.tasks.map fun t =>
        if t.id = tgt then { t with dependencies := t.dependencies ++ [src] }
        else t })) := by
  rw [addDependency]
  split_ifs with h1 h2 h3
  · exact Or.inl rfl
  · exact Or.inl rfl
  · exact Or.inl rfl
  · refine Or.inr ⟨h1, ?_, ?_, rfl⟩
    · cases hb : wouldCreateCycle s.tasks src tgt with
      | false => rfl
      | true => exact absurd hb h3
    · intro t hf
      rw [hf] at h2
      simp only [Option.map_some', Option.getD_some] at h2
      intro hmem
      exact h2 (by simpa using hmem)

theorem dependentsRel_cons_no_deps {ts : List Task} {t₀ : Task}
    (h : t₀.dependencies = []) :
    ∀ a b, dependentsRel (t₀ :: ts) a b ↔ dependentsRel ts a b := by
  intro a b
  constructor
  · rintro ⟨t, ht, hid, hdep⟩
    rcases List.mem_cons.1 ht with rfl | ht
    · rw [h] at hdep
      exact absurd hdep (List.not_mem_nil a)
    · exact ⟨t, ht, hid, hdep⟩
  · rintro ⟨t, ht, hid, hdep⟩
    exact ⟨t, List.mem_cons_of_mem _ ht, hid, hdep⟩

/-- The dependents relation after a successful `addDependency src tgt` is at
    most the old relation plus the single new edge `src → tgt`. -/
theorem dependentsRel_after_add {ts : List Task} {src tgt : String} :
    ∀ a b, dependentsRel (ts.map fun t =>
        if t.id = tgt then { t with dependencies := t.dependencies ++ [src] }
        else t) a b →
      dependentsRel ts a b ∨ (a = src ∧ b = tgt) := by
  rintro a b ⟨t', ht', hid, hdep⟩
  rcases List.mem_map.1 ht' with ⟨t, ht, rfl⟩
  by_cases hc : t.id = tgt
  · rw [if_pos hc] at hid hdep
    simp only at hid hdep
    rcases List.mem_append.1 hdep with hdep | hdep
    · exact Or.inl ⟨t, ht, hid, hdep⟩
    · simp only [List.mem_singleton] at hdep
      exact Or.inr ⟨hdep, hid ▸ hc⟩
  · rw [if_neg hc] at hid hdep
    exact Or.inl ⟨t, ht, hid, hdep⟩

/-- C2 counterexample state: a single task with no dependencies. -/
def singleState : TaskState := { tasks := [mkTask "a" [] 0], selectedTaskId := none }

theorem singleState_invariant : DepInvariant singleState.tasks := by
  refine ⟨by decide, by decide, acyclic_of_rank (fun _ => 0) ?_⟩
  rintro a b ⟨t, ht, _, hdep⟩
  fin_cases ht
  exact absurd hdep (by simp [mkTask])

/-- C2 counterexample: `updateTask` accepts a `dependencies` field, and with
    it a single call turns an invariant-satisfying state into one with a
    self-dependency (hence a cycle), refuting the claim for `updateTask`
    with arbitrary partial fields. -/
theorem updateTask_breaks_invariant_cex :
    DepInvariant singleState.tasks ∧
    ¬ DepInvariant
      (updateTask "a" { dependencies := some ["a"] } singleState).tasks := by
  refine ⟨singleState_invariant, ?_⟩
  rintro ⟨hself, -, -⟩
  have hmem : mkTask "a" ["a"] 0 ∈
      (updateTask "a" { dependencies := some ["a"] } singleState).tasks := by
    decide
  exact hself _ hmem (by decide)

/-- C2 (amended): starting from a state satisfying the §3 graph invariants
    whose task ids are pairwise distinct, every repository mutation preserves
    the invariants — with `updateTask` restricted to partial updates that do
    not overwrite `id` or `dependencies` (arbitrary updates can break the
    graph, see the counterexample). -/
theorem repository_ops_preserve_invariant (s : TaskState)
    (hids : (s.tasks.map Task.id).Nodup) (hinv : DepInvariant s.tasks) :
    (∀ newId title now, DepInvariant (addTask newId title now s).tasks) ∧
    (∀ i, DepInvariant (toggleTask i s).tasks) ∧
    (∀ i, DepInvariant (deleteTask i s).tasks) ∧
    (∀ i u, u.id = none → u.dependencies = none →
      DepInvariant (updateTask i u s).tasks) ∧
    (∀ i p, DepInvariant (updateTaskPosition i p s).tasks) ∧
    (∀ src tgt, DepInvariant (addDependency src tgt s).2.tasks) ∧
    (∀ src tgt, DepInvariant (removeDependency src tgt s).tasks) ∧
    (∀ i title subId, DepInvariant (addSubtask i title subId s).tasks) ∧
    (∀ i subId, DepInvariant (toggleSubtask i subId s).tasks) ∧
    (∀ i subId, DepInvariant (deleteSubtask i subId s).tasks) := by
  obtain ⟨hself, hnd, hacy⟩ := hinv
  refine ⟨?_, ?_, ?_, ?_, ?_, ?_, ?_, ?_, ?_, ?_⟩
  · intro newId title now
    refine ⟨?_, ?_, ?_⟩
    · intro t ht
      rcases List.mem_cons.1 ht with rfl | ht
      · simp
      · exact hself t ht
    · intro t ht
      rcases List.mem_cons.1 ht with rfl | ht
      · simp
      · exact hnd t ht
    · intro a h
      exact hacy a (h.mono fun a b hr =>
        (dependentsRel_cons_no_deps rfl a b).1 hr)
  · intro i
    exact depInvariant_map (fun t => by split <;> rfl)
      (fun t => by split <;> rfl) ⟨hself, hnd, hacy⟩
  · intro i
    apply depInvariant_of_sublist ?_ ⟨hself, hnd, hacy⟩
    intro t' ht'
    simp only [deleteTask, List.mem_map, List.mem_filter] at ht'
    rcases ht' with ⟨t, ⟨ht, -⟩, rfl⟩
    exact ⟨t, ht, rfl, List.filter_sublist _⟩
  · intro i u hid0 hdep0
    exact depInvariant_map
      (fun t => by split <;> simp [applyUpdate, hid0])
      (fun t => by split <;> simp [applyUpdate, hdep0])
      ⟨hself, hnd, hacy⟩
  · intro i p
    exact depInvariant_map (fun t => by split <;> rfl)
      (fun t => by split <;> rfl) ⟨hself, hnd, hacy⟩
  · intro src tgt
    rcases addDependency_cases s src tgt with heq | ⟨hne, hcyc, hguard, heq⟩
    · rw [heq]
      exact ⟨hself, hnd, hacy⟩
    · rw [heq]
      refine ⟨?_, ?_, ?_⟩
      · intro t' ht'
        rcases List.mem_map.1 ht' with ⟨t, ht, rfl⟩
        by_cases hc : t.id = tgt
        · rw [if_pos hc]
          simp only
          rw [hc]
          intro hmem
          rcases List.mem_append.1 hmem with hmem | hmem
          · exact hself t ht (hc ▸ hmem)
          · simp only [List.mem_singleton] at hmem
            exact hne (hmem ▸ rfl)
        · rw [if_neg hc]
          exact hself t ht
      · intro t' ht'
        rcases List.mem_map.1 ht' with ⟨t, ht, rfl⟩
        by_cases hc : t.id = tgt
        · rw [if_pos hc]
          simp only
          have hfind : ∃ t₁, (s.tasks.find? fun t => t.id = tgt) = some t₁ := by
            rw [← Option.isSome_iff_exists]
            exact List.find?_isSome.2 ⟨t, ht, by simp [hc]⟩
          rcases hfind with ⟨t₁, hf⟩
          have ht₁mem := List.mem_of_find?_eq_some hf
          have ht₁id : t₁.id = tgt := by simpa using List.find?_some hf
          have : t₁ = t := id_unique_of_nodup hids ht₁mem ht (by rw [ht₁id, hc])
          have hsrc : src ∉ t.dependencies := this ▸ hguard t₁ hf
          simp [List.nodup_append, hnd t ht, hsrc]
        · rw [if_neg hc]
          exact hnd t ht
      · exact acyclic_add_edge dependentsRel_after_add
          (fun hr => by
            rw [(wouldCreateCycle_iff s.tasks src tgt).2 hr] at hcyc
            exact absurd hcyc (by simp)) hacy
  · intro src tgt
    apply depInvariant_of_sublist ?_ ⟨hself, hnd, hacy⟩
    intro t' ht'
    simp only [removeDependency, List.mem_map] at ht'
    rcases ht' with ⟨t, ht, rfl⟩
    by_cases hc : t.id = tgt
    · rw [if_pos hc]
      exact ⟨t, ht, rfl, List.filter_sublist _⟩
    · rw [if_neg hc]
      exact ⟨t, ht, rfl, List.Sublist.refl _⟩
  · intro i title subId
    exact depInvariant_map (fun t => by split <;> rfl)
      (fun t => by split <;> rfl) ⟨hself, hnd, hacy⟩
  · intro i subId
    exact depInvariant_map (fun t => by split <;> rfl)
      (fun t => by split <;> rfl) ⟨hself, hnd, hacy⟩
  · intro i subId
    exact depInvariant_map (fun t => by split <;> rfl)
      (fun t => by split <;> rfl) ⟨hself, hnd, hacy⟩

theorem repository_ops_preserve_invariant_witness :
    DepInvariant (toggleTask "a" chainState).tasks ∧
    DepInvariant (addDependency "a" "c" chainState).2.tasks :=
  ⟨(repository_ops_preserve_invariant chainState (by decide)
      ⟨by decide, by decide, chain_acyclic⟩).2.1 "a",
   (repository_ops_preserve_invariant chainState (by decide)
      ⟨by decide, by decide, chain_acyclic⟩).2.2.2.2.2.1 "a" "c"⟩

end Dotty

namespace Dotty

theorem taskCompare_total (tasks : List Task) :
    ∀ a b, taskCompare tasks a b ≤ 0 ∨ taskCompare tasks b a ≤ 0 := by
  intro a b
  rw [taskCompare, taskCompare]
  split_ifs with h1 h2 h3 <;> omega

theorem taskCompare_trans (tasks : List Task) :
    ∀ a b c, taskCompare tasks a b ≤ 0 → taskCompare tasks b c ≤ 0 →
      taskCompare tasks a c ≤ 0 := by
  intro a b c hab hbc
  rw [taskCompare] at hab hbc ⊢
  split_ifs at hab hbc ⊢ <;> omega

/-- C5: `getSortedTasks` permutes the collection into an order that is
    ascending in the priority bucket and, within equal buckets, descending in
    `createdAt`; in particular every bucket-1 task (dependencies all done)
    appears before every bucket-2 task (some dependency incomplete). -/
theorem getSortedTasks_spec (tasks : List Task) :
    (getSortedTasks tasks).Perm tasks ∧
    (getSortedTasks tasks).Pairwise (fun a b =>
      getTaskPriority tasks a ≤ getTaskPriority tasks b ∧
      (getTaskPriority tasks a = getTaskPriority tasks b →
        b.createdAt ≤ a.createdAt)) ∧
    (∀ i j (hi : i < (getSortedTasks tasks).length)
        (hj : j < (getSortedTasks tasks).length),
      getTaskPriority tasks ((getSortedTasks tasks).get ⟨i, hi⟩) = 1 →
      getTaskPriority tasks ((getSortedTasks tasks).get ⟨j, hj⟩) = 2 →
      i < j) := by
  haveI htot : IsTotal Task (fun a b => taskCompare tasks a b ≤ 0) :=
    ⟨taskCompare_total tasks⟩
  haveI htrans : IsTrans Task (fun a b => taskCompare tasks a b ≤ 0) :=
    ⟨taskCompare_trans tasks⟩
  have hsorted := List.sorted_insertionSort
    (fun a b => taskCompare tasks a b ≤ 0) tasks
  have hpair : (getSortedTasks tasks).Pairwise (fun a b =>
      getTaskPriority tasks a ≤ getTaskPriority tasks b ∧
      (getTaskPriority tasks a = getTaskPriority tasks b →
        b.createdAt ≤ a.createdAt)) := by
    apply List.Pairwise.imp ?_ hsorted
    intro a b h
    rw [taskCompare] at h
    split_ifs at h with hne
    · exact ⟨by omega, fun heq => absurd heq hne⟩
    · refine ⟨by omega, fun _ => by omega⟩
  refine ⟨List.perm_insertionSort _ tasks, hpair, ?_⟩
  intro i j hi hj h1 h2
  rcases Nat.lt_trichotomy i j with h | h | h
  · exact h
  · subst h
    rw [h1] at h2
    exact absurd h2 (by decide)
  · have := (List.pairwise_iff_get.1 hpair) ⟨j, hj⟩ ⟨i, hi⟩ h
    rw [h1, h2] at this
    omega

def taskDoneA : Task := { mkTask "a" [] 0 with status := Status.done }
def taskR : Task := mkTask "r" ["a"] 0
def taskS : Task := mkTask "s" ["r"] 5
def sortFixture : List Task := [taskS, taskR, taskDoneA]

theorem getSortedTasks_spec_witness : (1 : Nat) < 2 :=
  (getSortedTasks_spec sortFixture).2.2 1 2 (by decide) (by decide)
    (by decide) (by decide)

/-- C6: on an acyclic collection containing the edge `src → tgt`, removing
    the edge and immediately re-adding it succeeds: `addDependency` returns
    `true` (no stale-cycle false positive). -/
theorem remove_then_add_succeeds (s : TaskState) (src tgt : String)
    (hne : src ≠ tgt)
    (hedge : ∃ t ∈ s.tasks, t.id = tgt ∧ src ∈ t.dependencies)
    (hacy : Acyclic s.tasks) :
    (addDependency src tgt (removeDependency src tgt s)).1 = true := by
  have hnoedge : ∀ t ∈ (removeDependency src tgt s).tasks.find?
      fun t => t.id = tgt, src ∉ t.dependencies := by
    intro t' hf
    rw [Option.mem_def] at hf
    have ht'id : t'.id = tgt := by simpa using List.find?_some hf
    have ht'mem := List.mem_of_find?_eq_some hf
    simp only [removeDependency, List.mem_map] at ht'mem
    rcases ht'mem with ⟨t, _, rfl⟩
    by_cases hc : t.id = tgt
    · rw [if_pos hc]
      intro hmem
      have := List.of_mem_filter hmem
      simp at this
    · rw [if_neg hc] at ht'id
      exact absurd ht'id hc
  have hsub : ∀ a b, dependentsRel (removeDependency src tgt s).tasks a b →
      dependentsRel s.tasks a b := by
    rintro a b ⟨t', ht', hid, hdep⟩
    simp only [removeDependency, List.mem_map] at ht'
    rcases ht' with ⟨t, ht, rfl⟩
    by_cases hc : t.id = tgt
    · rw [if_pos hc] at hid hdep
      exact ⟨t, ht, hid, List.mem_of_mem_filter hdep⟩
    · rw [if_neg hc] at hid hdep
      exact ⟨t, ht, hid, hdep⟩
  have hwcc : wouldCreateCycle (removeDependency src tgt s).tasks src tgt = false := by
    cases hb : wouldCreateCycle (removeDependency src tgt s).tasks src tgt with
    | false => rfl
    | true =>
      have hr : Relation.ReflTransGen (dependentsRel (removeDependency src tgt s).tasks)
          tgt src := (wouldCreateCycle_iff _ src tgt).1 hb
      have hr' : Relation.ReflTransGen (dependentsRel s.tasks) tgt src :=
        Relation.ReflTransGen.mono (fun a b h => hsub a b h) hr
      rcases hedge with ⟨t, ht, hid, hdep⟩
      have hstep : dependentsRel s.tasks src tgt := ⟨t, ht, hid, hdep⟩
      exact absurd (Relation.TransGen.head' hstep hr') (hacy src)
  rw [addDependency, if_neg hne]
  rw [if_neg (by rw [addDependency_dup_guard hnoedge]; exact Bool.false_ne_true)]
  rw [if_neg (by rw [hwcc]; exact Bool.false_ne_true)]

theorem remove_then_add_succeeds_witness :
    (addDependency "b" "c" (removeDependency "b" "c" chainState)).1 = true :=
  remove_then_add_succeeds chainState "b" "c" (by decide) (by decide) chain_acyclic

end Dotty

namespace Dotty

theorem snapToGrid_dvd (v : Int) : GRID_SIZE ∣ snapToGrid v :=
  dvd_mul_left _ _

theorem snapToGrid_of_dvd {v : Int} (h : GRID_SIZE ∣ v) : snapToGrid v = v := by
  obtain ⟨k, rfl⟩ := h
  rw [snapToGrid, GRID_SIZE]
  rw [Int.fdiv_eq_ediv _ (by omega)]
  omega

theorem snapToGrid_idem (v : Int) : snapToGrid (snapToGrid v) = snapToGrid v :=
  snapToGrid_of_dvd (snapToGrid_dvd v)

theorem getInitialPosition_dvd (i : Nat) :
    GRID_SIZE ∣ (getInitialPosition i).x ∧ GRID_SIZE ∣ (getInitialPosition i).y :=
  ⟨snapToGrid_dvd _, snapToGrid_dvd _⟩

theorem fixTask_idem (i : Nat) (t : Task) :
    fixTask i (fixTask i t) = fixTask i t := by
  cases ht : t.position with
  | none =>
    simp [fixTask, ht, getInitialPosition, snapToGrid_idem]
  | some p =>
    simp [fixTask, ht, snapToGrid_idem]

theorem cleanupFrom_length (i : Nat) (l : List Task) :
    (cleanupFrom i l).length = l.length := by
  induction l generalizing i with
  | nil => rfl
  | cons t ts ih => simp [cleanupFrom, ih]

theorem cleanupFrom_get (l : List Task) :
    ∀ (i j : Nat) (h : j < (cleanupFrom i l).length) (h' : j < l.length),
      (cleanupFrom i l).get ⟨j, h⟩ = fixTask (i + j) (l.get ⟨j, h'⟩) := by
  induction l with
  | nil =>
    intro i j h h'
    exact absurd h' (by simp)
  | cons t ts ih =>
    intro i j h h'
    cases j with
    | zero => simp [cleanupFrom]
    | succ j =>
      have h2 : j < (cleanupFrom (i + 1) ts).length := by
        rw [cleanupFrom_length]
        simpa using h'
      have h3 : j < ts.length := by simpa using h'
      simp only [cleanupFrom, List.get_cons_succ]
      rw [ih (i + 1) j h2 h3]
      congr 1
      omega

theorem cleanupFrom_idem (l : List Task) :
    ∀ i, cleanupFrom i (cleanupFrom i l) = cleanupFrom i l := by
  induction l with
  | nil => intro i; rfl
  | cons t ts ih =>
    intro i
    simp only [cleanupFrom]
    rw [fixTask_idem, ih]

theorem migrateTask_injectTask (t : Task) : migrateTask (injectTask t) = t := rfl

/-- C8: for a stored version older than the current version 3, the load-time
    migration backfills `dependencies`, `dueDate`, `description`, `subtasks`
    and assigns a computed initial grid position exactly when `position` was
    absent (snapping it when present); re-running the load step on the
    already migrated record changes nothing. -/
theorem migration_backfills (v : Nat) (ts : List PTask) (hv : v < 3) :
    ∃ out, loadMigrated v (some ts) = some out ∧
      out.length = ts.length ∧
      (∀ j (hj : j < ts.length) (ho : j < out.length),
        (out.get ⟨j, ho⟩).dependencies = (ts.get ⟨j, hj⟩).dependencies.getD [] ∧
        (out.get ⟨j, ho⟩).dueDate = (ts.get ⟨j, hj⟩).dueDate.getD none ∧
        (out.get ⟨j, ho⟩).description = (ts.get ⟨j, hj⟩).description.getD "" ∧
        (out.get ⟨j, ho⟩).subtasks = (ts.get ⟨j, hj⟩).subtasks.getD [] ∧
        ((ts.get ⟨j, hj⟩).position = none →
          (out.get ⟨j, ho⟩).position = some (getInitialPosition j)) ∧
        (∀ p, (ts.get ⟨j, hj⟩).position = some p →
          (out.get ⟨j, ho⟩).position =
            some { x := snapToGrid p.x, y := snapToGrid p.y })) ∧
      (∀ v', loadMigrated v' (some (out.map injectTask)) = some out) := by
  have hmap : (ts.map fun t => injectTask (migrateTask t)).map migrateTask
      = ts.map migrateTask := by
    rw [List.map_map]
    exact List.map_congr_left fun t _ => migrateTask_injectTask (migrateTask t)
  refine ⟨cleanupFrom 0 (ts.map migrateTask), ?_, ?_, ?_, ?_⟩
  · rw [loadMigrated, migrate, if_pos hv]
    simp only [Option.map_some']
    rw [hmap]
  · rw [cleanupFrom_length, List.length_map]
  · intro j hj ho
    have hj' : j < (ts.map migrateTask).length := by simpa using hj
    have hget : (cleanupFrom 0 (ts.map migrateTask)).get ⟨j, ho⟩
        = fixTask j ((ts.map migrateTask).get ⟨j, hj'⟩) := by
      rw [cleanupFrom_get _ 0 j ho hj']
      congr 1
      omega
    rw [hget, List.get_map]
    refine ⟨rfl, rfl, rfl, rfl, ?_, ?_⟩
    · intro hp
      have hp2 : ts[j].position = none := hp
      simp [fixTask, migrateTask, hp2]
    · intro p hp
      have hp2 : ts[j].position = some p := hp
      simp [fixTask, migrateTask, hp2]
  · intro v'
    have hout : ∀ X : List Task, (X.map injectTask).map migrateTask = X := by
      intro X
      rw [List.map_map]
      exact (List.map_congr_left fun t _ => migrateTask_injectTask t).trans
        (List.map_id X)
    rw [loadMigrated, migrate]
    split_ifs with hv'
    · simp only [Option.map_some', Option.some.injEq]
      have : ((cleanupFrom 0 (ts.map migrateTask)).map injectTask).map
          (fun t => injectTask (migrateTask t)) =
          (cleanupFrom 0 (ts.map migrateTask)).map injectTask := by
        rw [List.map_map]
        exact List.map_congr_left fun t _ => by
          rw [Function.comp_apply, migrateTask_injectTask]
      rw [this, hout, cleanupFrom_idem]
    · simp only [Option.map_some', Option.some.injEq]
      rw [hout, cleanupFrom_idem]

def ptaskOld : PTask :=
  { id := "a", title := "t", status := Status.todo, createdAt := 3,
    position := none, dependencies := none, dueDate := none,
    description := none, subtasks := none }

theorem migration_backfills_witness :
    ∃ out, loadMigrated 2 (some [ptaskOld]) = some out ∧
      out.length = [ptaskOld].length ∧
      (∀ j (hj : j < [ptaskOld].length) (ho : j < out.length),
        (out.get ⟨j, ho⟩).dependencies =
          ([ptaskOld].get ⟨j, hj⟩).dependencies.getD [] ∧
        (out.get ⟨j, ho⟩).dueDate = ([ptaskOld].get ⟨j, hj⟩).dueDate.getD none ∧
        (out.get ⟨j, ho⟩).description =
          ([ptaskOld].get ⟨j, hj⟩).description.getD "" ∧
        (out.get ⟨j, ho⟩).subtasks = ([ptaskOld].get ⟨j, hj⟩).subtasks.getD [] ∧
        (([ptaskOld].get ⟨j, hj⟩).position = none →
          (out.get ⟨j, ho⟩).position = some (getInitialPosition j)) ∧
        (∀ p, ([ptaskOld].get ⟨j, hj⟩).position = some p →
          (out.get ⟨j, ho⟩).position =
            some { x := snapToGrid p.x, y := snapToGrid p.y })) ∧
      (∀ v', loadMigrated v' (some (out.map injectTask)) = some out) :=
  migration_backfills 2 [ptaskOld] (by decide)

end Dotty

namespace Dotty

theorem collisionFree_iff_any_false (others : List Pos) (pos : Pos) :
    collisionFree others pos ↔
      (others.any fun p => isOverlapping pos p 20) = false := by
  rw [List.any_eq_false]
  constructor
  · intro h p hp
    rw [h p hp]
    simp
  · intro h p hp
    simpa using h p hp

theorem advancePos_dvd (sy : Int) (pos : Pos) (n : Nat)
    (hx : GRID_SIZE ∣ pos.x) (hy : GRID_SIZE ∣ pos.y) :
    GRID_SIZE ∣ (advancePos sy pos n).x ∧ GRID_SIZE ∣ (advancePos sy pos n).y := by
  rw [advancePos]
  split
  · exact ⟨dvd_add (dvd_add hx ⟨10, rfl⟩) ⟨1, rfl⟩, snapToGrid_dvd _⟩
  · exact ⟨hx, dvd_add (dvd_add hy ⟨3, rfl⟩) ⟨1, rfl⟩⟩

theorem probeLoop_dvd (others : List Pos) (sy : Int) :
    ∀ pos attempts, GRID_SIZE ∣ pos.x → GRID_SIZE ∣ pos.y →
      GRID_SIZE ∣ (probeLoop others sy pos attempts).x ∧
      GRID_SIZE ∣ (probeLoop others sy pos attempts).y := by
  intro pos attempts
  induction pos, attempts using probeLoop.induct others sy with
  | case1 pos attempts hlt hcol ih =>
    intro hx hy
    rw [probeLoop, if_pos hlt, if_pos hcol]
    exact ih (advancePos_dvd sy pos attempts hx hy).1
      (advancePos_dvd sy pos attempts hx hy).2
  | case2 pos attempts hlt hcol =>
    intro hx hy
    rw [probeLoop, if_pos hlt, if_neg hcol]
    exact ⟨hx, hy⟩
  | case3 pos attempts hge =>
    intro hx hy
    rw [probeLoop, if_neg hge]
    exact ⟨hx, hy⟩

theorem probeLoop_all_collide (others : List Pos) (sx sy : Int) :
    ∀ m n, 50 - n ≤ m → n ≤ 50 →
      (∀ k, n ≤ k → k < 50 → ¬ collisionFree others (probeSeq sx sy k)) →
      probeLoop others sy (probeSeq sx sy n) n = probeSeq sx sy 50 := by
  intro m
  induction m with
  | zero =>
    intro n hm hn _
    have h50 : n = 50 := by omega
    subst h50
    rw [probeLoop, if_neg (by omega)]
  | succ m ih =>
    intro n hm hn hall
    by_cases hlt : n < 50
    · have hcol : (others.any fun p =>
          isOverlapping (probeSeq sx sy n) p 20) = true := by
        cases hb : others.any fun p => isOverlapping (probeSeq sx sy n) p 20 with
        | true => rfl
        | false =>
          exact absurd ((collisionFree_iff_any_false _ _).2 hb)
            (hall n le_rfl hlt)
      rw [probeLoop, if_pos hlt, if_pos hcol]
      have hstep : advancePos sy (probeSeq sx sy n) n = probeSeq sx sy (n + 1) := rfl
      rw [hstep]
      exact ih (n + 1) (by omega) (by omega) fun k hk1 hk2 => hall k (by omega) hk2
    · have h50 : n = 50 := by omega
      subst h50
      rw [probeLoop, if_neg (by omega)]

theorem probeLoop_finds_free (others : List Pos) (sx sy : Int) :
    ∀ m n, 50 - n ≤ m →
      (∃ k, n ≤ k ∧ k < 50 ∧ collisionFree others (probeSeq sx sy k)) →
      collisionFree others (probeLoop others sy (probeSeq sx sy n) n) := by
  intro m
  induction m with
  | zero =>
    rintro n hm ⟨k, hk1, hk2, -⟩
    exact absurd hk2 (by omega)
  | succ m ih =>
    rintro n hm ⟨k, hk1, hk2, hkfree⟩
    have hlt : n < 50 := by omega
    rw [probeLoop, if_pos hlt]
    cases hb : others.any fun p => isOverlapping (probeSeq sx sy n) p 20 with
    | false =>
      rw [if_neg Bool.false_ne_true]
      exact (collisionFree_iff_any_false _ _).2 hb
    | true =>
      rw [if_pos rfl]
      have hstep : advancePos sy (probeSeq sx sy n) n = probeSeq sx sy (n + 1) := rfl
      rw [hstep]
      apply ih (n + 1) (by omega)
      have hkn : k ≠ n := by
        intro he
        subst he
        rw [(collisionFree_iff_any_false _ _).1 hkfree] at hb
        exact absurd hb (by simp)
      exact ⟨k, by omega, hk2, hkfree⟩

/-- The other nodes' positions as `getNonOverlappingPosition` collects them:
    every node except the dragged one. -/
def nodeOthers (draggedNode : FlowNode) (allNodes : List FlowNode) : List Pos :=
  (allNodes.filter fun n => n.id ≠ draggedNode.id).map fun n => n.position

/-- C10: `getNonOverlappingPosition` always lands on grid-aligned
    coordinates; when some probe among the 50-attempt budget is
    collision-free it returns a collision-free position, and when every probe
    in the budget collides it returns the position after the 50th advance
    (possibly still colliding).  Determinism is inherent: it is a pure
    function of the dragged node and the node set. -/
theorem getNonOverlappingPosition_spec (draggedNode : FlowNode)
    (allNodes : List FlowNode) :
    (GRID_SIZE ∣ (getNonOverlappingPosition draggedNode allNodes).x ∧
     GRID_SIZE ∣ (getNonOverlappingPosition draggedNode allNodes).y) ∧
    ((∃ k, k < 50 ∧ collisionFree (nodeOthers draggedNode allNodes)
        (probeSeq draggedNode.position.x draggedNode.position.y k)) →
      collisionFree (nodeOthers draggedNode allNodes)
        (getNonOverlappingPosition draggedNode allNodes)) ∧
    ((∀ k, k < 50 → ¬ collisionFree (nodeOthers draggedNode allNodes)
        (probeSeq draggedNode.position.x draggedNode.position.y k)) →
      getNonOverlappingPosition draggedNode allNodes =
        probeSeq draggedNode.position.x draggedNode.position.y 50) := by
  have hdef : getNonOverlappingPosition draggedNode allNodes =
      probeLoop (nodeOthers draggedNode allNodes) draggedNode.position.y
        (probeSeq draggedNode.position.x draggedNode.position.y 0) 0 := rfl
  refine ⟨?_, ?_, ?_⟩
  · rw [hdef]
    exact probeLoop_dvd _ _ _ 0 (snapToGrid_dvd _) (snapToGrid_dvd _)
  · rintro ⟨k, hk, hfree⟩
    rw [hdef]
    exact probeLoop_finds_free _ _ _ 50 0 (by omega)
      ⟨k, Nat.zero_le k, hk, hfree⟩
  · intro hall
    rw [hdef]
    exact probeLoop_all_collide _ _ _ 50 0 (by omega) (by omega)
      fun k _ hk2 => hall k hk2

theorem getNonOverlappingPosition_spec_witness :
    collisionFree (nodeOthers { id := "n", position := { x := 3, y := 3 } } [])
      (getNonOverlappingPosition { id := "n", position := { x := 3, y := 3 } } []) :=
  (getNonOverlappingPosition_spec { id := "n", position := { x := 3, y := 3 } } []).2.1
    ⟨0, by omega, fun p hp => absurd hp (List.not_mem_nil p)⟩

end Dotty
